import Mathlib

/-!
# Verification of the `File` path library

A shallow embedding, in Lean 4, of the path-decomposition and directory
traversal code of the `File` repository (FileSpec.cpp, FileItr.cpp,
DirTree.h), together with theorems settling the specification claims.

Path strings are modelled as `List Char`.  `std::string::rfind` is modelled
by `rfindPos`, iterator spans `[b, e)` by `extract`, and the Win32
`FindFirstFile` enumeration by an abstract listing (`List Entry`).
-/

namespace PKIsensee

/-- Path strings: `std::string` modelled as a list of characters. -/
abbrev Str := List Char

/-- `std::string::rfind c`: index of the rightmost occurrence of `c`,
or `none` (`npos`) if absent. -/
def rfindPos : Str → Char → Option Nat
  | [], _ => none
  | a :: as, c =>
    match rfindPos as c with
    | some i => some (i + 1)
    | none => if a = c then some 0 else none

/-- `FileSpec::ParseSpec`, first landmark: `mFileSpec.length() > 1 && mFileSpec[1] == ':'`.
`s.get? 1 = some ':'` holds exactly when the length exceeds 1 and the second
character is the volume separator. -/
def bHaveVolSep (s : Str) : Bool := s.get? 1 == some ':'

/-- `FileSpec::ParseSpec`: `bHaveFileSep = (lastFileSep != npos) && (bHaveDirSep ? (lastFileSep > lastDirSep) : true)`. -/
def bHaveFileSep (s : Str) : Bool :=
  match rfindPos s '.', rfindPos s '\\' with
  | some f, some d => decide (d < f)
  | some _, none => true
  | none, _ => false

/-- The eight iterators computed by `FileSpec::ParseSpec`, as indices into the
string.  `volBegin` is always 0 and `extEnd` always the length, so only the
interior breakpoints are stored (plus `extEnd` for fidelity). -/
structure ParsePoints where
  volEnd : Nat
  dirEnd : Nat
  fileEnd : Nat
  extBegin : Nat
  extEnd : Nat
  deriving Repr, DecidableEq

/-- `FileSpec::ParseSpec` (FileSpec.cpp): three landmark searches
(first volume separator, last `'\\'`, last `'.'`), then span boundaries. -/
def ParseSpec (s : Str) : ParsePoints :=
  let lastDirSep := rfindPos s '\\'
  let lastFileSep := rfindPos s '.'
  let volEnd := if bHaveVolSep s then 2 else 0
  let dirEnd :=
    match lastDirSep with
    | some d => d + 1
    | none => volEnd
  let fileEnd := if bHaveFileSep s then lastFileSep.getD s.length else s.length
  let extBegin := if bHaveFileSep s then lastFileSep.getD s.length + 1 else s.length
  ⟨volEnd, dirEnd, fileEnd, extBegin, s.length⟩

/-- `std::string(s.begin()+i, s.begin()+j)`: the span `[i, j)` of `s`. -/
def extract (s : Str) (i j : Nat) : Str := (s.take j).drop i

/-- `FileSpec::GetVol`: the span `[volBegin, volEnd)`. -/
def GetVol (s : Str) : Str := extract s 0 (ParseSpec s).volEnd

/-- `FileSpec::GetDir`: the span `[dirBegin, dirEnd)` where `dirBegin = volEnd`. -/
def GetDir (s : Str) : Str := extract s (ParseSpec s).volEnd (ParseSpec s).dirEnd

/-- `FileSpec::GetFileNoExtension`: the span `[fileBegin, fileEnd)` where
`fileBegin = dirEnd`. -/
def GetFileNoExtension (s : Str) : Str := extract s (ParseSpec s).dirEnd (ParseSpec s).fileEnd

/-- `FileSpec::GetExtension`: the span `[extBegin, extEnd)`. -/
def GetExtension (s : Str) : Str := extract s (ParseSpec s).extBegin (ParseSpec s).extEnd

/-- `FileSpec::GetFile` (also the `file` output of the three-way
`FileSpec::Split`): the span `[fileBegin, extEnd)`, i.e. stem plus any
extension separator plus extension. -/
def GetFile (s : Str) : Str := extract s (ParseSpec s).dirEnd (ParseSpec s).extEnd

/-- The four-way `FileSpec::Split`: volume, directory, file-sans-extension,
extension. -/
def Split4 (s : Str) : Str × Str × Str × Str :=
  (GetVol s, GetDir s, GetFileNoExtension s, GetExtension s)

/-- `FileSpec::IsFolder`: false if the (three-way split) file portion is
non-empty, else true when volume or directory is non-empty. -/
def IsFolder (s : Str) : Bool :=
  if !(GetFile s).isEmpty then false else !(GetVol s).isEmpty || !(GetDir s).isEmpty

/-- `FileSpec::IsFile`: true iff the (three-way split) file portion is
non-empty. -/
def IsFile (s : Str) : Bool := !(GetFile s).isEmpty

/-- The directory-separator test of the part constructors:
`!dir.empty() && *dir.rbegin() != '\\' && *dir.rbegin() != '/'`. -/
def dirSepNeeded (dir : Str) : Bool :=
  match dir.getLast? with
  | some c => c != '\\' && c != '/'
  | none => false

/-- `FileSpec::FileSpec(vol, dir, file)`: concatenate, appending a `'\\'`
after `dir` when `dirSepNeeded`. -/
def mkFileSpec3 (vol dir file : Str) : Str :=
  vol ++ dir ++ (if dirSepNeeded dir then ['\\'] else []) ++ file

/-- The extension-separator test of the four-part constructor, exactly as the
source writes it: `!ext.empty() && *ext.rbegin() != '.'` — note that
`rbegin` inspects the LAST character of `ext`. -/
def extSepNeeded (ext : Str) : Bool :=
  match ext.getLast? with
  | some c => c != '.'
  | none => false

/-- `FileSpec::FileSpec(vol, dir, file, ext)`: concatenate, appending a `'\\'`
after `dir` when `dirSepNeeded` and a `'.'` before `ext` when
`extSepNeeded`. -/
def mkFileSpec4 (vol dir file ext : Str) : Str :=
  vol ++ dir ++ (if dirSepNeeded dir then ['\\'] else []) ++ file
      ++ (if extSepNeeded ext then ['.'] else []) ++ ext

/-- Follows the spec's words (for comparison with `mkFileSpec4`): "an
extension separator is prepended to `ext` only if it does not already START
with one", i.e. the FIRST character of `ext` is inspected. -/
def mkFileSpec4ByFirstChar (vol dir file ext : Str) : Str :=
  vol ++ dir ++ (if dirSepNeeded dir then ['\\'] else []) ++ file
      ++ (if (match ext.head? with | some c => c != '.' | none => false) then ['.'] else []) ++ ext

/-- The volume-shape portion of `FileSpec::Validate`: the volume is empty, or
its first character is alphabetic (its second character being `':'` and its
length being 2 are automatic from `ParseSpec`).  Strings failing this check
never survive construction of a `FileSpec`. -/
def volumeValid (s : Str) : Bool :=
  match s with
  | c0 :: c1 :: _ => c1 != ':' || c0.isAlpha
  | _ => true

/-- One entry of an OS directory listing: the `cFileName` and directory flag
of a `WIN32_FIND_DATAA` record (size and times are irrelevant here). -/
structure Entry where
  name : Str
  isDir : Bool
  deriving Repr, DecidableEq

/-- The test performed by `FileItr::SkipSpecialFolders`: a folder entry whose
name is exactly `"."` or `".."`. -/
def isSpecial (e : Entry) : Bool :=
  e.isDir && (e.name == ['.'] || e.name == ['.', '.'])

/-- `FileItr::SkipSpecialFolders` acting on (current entry, remaining
entries): while the current entry is a special folder, advance; the result is
the positioned cursor (current entry and remainder) or `none` when the
listing is exhausted (`Close`). -/
def skipSpecialFolders : List Entry → Option (Entry × List Entry)
  | [] => none
  | e :: rest => if isSpecial e then skipSpecialFolders rest else some (e, rest)

/-- `FileItr::operator++` on the cursor: `FindNextFileA` pops the next raw
entry (closing on exhaustion), then `SkipSpecialFolders`. -/
def itrStep : Option (Entry × List Entry) → Option (Entry × List Entry)
  | none => none
  | some (_, rest) => skipSpecialFolders rest

/-- The cursor after a successful open of a listing `L` followed by `n`
explicit increments: `FileItr::Init` positions on the first raw entry and
runs `SkipSpecialFolders`; each `++` is `itrStep`. -/
def itrState (L : List Entry) : Nat → Option (Entry × List Entry)
  | 0 => skipSpecialFolders L
  | n + 1 => itrStep (itrState L n)

/-- The full sequence of positioned entries of one `FileItr` run over a raw
listing: every raw entry in order, special folders skipped. -/
def enumAll : List Entry → List Entry
  | [] => []
  | e :: rest => if isSpecial e then enumAll rest else e :: enumAll rest

/-- Result of `FindFirstFileExA`: a listing, or a Win32 error code. -/
inductive OpenResult where
  | ok (entries : List Entry)
  | err (code : Nat)
  deriving Repr, DecidableEq

/-- Win32 `ERROR_BAD_NETPATH` ("the network path was not found"). -/
def ERROR_BAD_NETPATH : Nat := 53

/-- The observable state of a `FileItr` right after construction: the cursor
(`mFindHandle`/`mpFindData`) and the `mNetworkAvail` flag. -/
structure FileItrSt where
  cur : Option (Entry × List Entry)
  networkAvail : Bool
  deriving Repr, DecidableEq

/-- `FileItr::Init` (FileItr.cpp): on success, position on the first entry
and skip special folders, `mNetworkAvail` keeping its initial value `true`;
on open failure, no current entry, and `mNetworkAvail` is cleared exactly
when `GetLastError() == ERROR_BAD_NETPATH`. -/
def fileItrInit : OpenResult → FileItrSt
  | .ok entries => ⟨skipSpecialFolders entries, true⟩
  | .err code => ⟨none, if code == ERROR_BAD_NETPATH then false else true⟩

/-- `FileItr::Exists`: the find handle is valid, i.e. a current entry is
held. -/
def ItrExists (st : FileItrSt) : Bool := st.cur.isSome

/-- `FileItr::IsNetworkAvailable`. -/
def IsNetworkAvailable (st : FileItrSt) : Bool := st.networkAvail

/-- `DirTree::Mode`. -/
inductive Mode where
  | NoSubFolders
  | YesSubFolders
  deriving Repr, DecidableEq

/-- Trace events of one `DirTree::ForEach` run: construction of a `FileItr`
on a pattern, a `fnForEach(*i)` visit, and a recursive `ForEach` call on a
child pattern. -/
inductive Ev where
  | openEnum (pattern : Str)
  | visit (spec : Str)
  | recurse (pattern : Str)
  deriving Repr, DecidableEq

/-- The trailing-backslash strip performed by `FileItr::Init` (and
`FileSpec::Exists`): drop the last character when it is `'\\'`. -/
def stripTrailingSep (s : Str) : Str :=
  match s.getLast? with
  | some c => if c = '\\' then s.dropLast else s
  | none => s

/-- One full `FileItr` iteration over `pattern` against the OS listing
oracle `listing`: strip the trailing backslash, split the stripped pattern
into `mVol`/`mDir`, and pair every positioned entry with its composed spec
`FileSpec(mVol, mDir, cFileName)`.  A failed open is modelled as an empty
listing (error flags are modelled separately by `fileItrInit`). -/
def itrList (listing : Str → List Entry) (pattern : Str) : List (Entry × Str) :=
  (enumAll (listing (stripTrailingSep pattern))).map
    (fun e => (e, mkFileSpec3 (GetVol (stripTrailingSep pattern))
      (GetDir (stripTrailingSep pattern)) e.name))

/-- `DirTree::ForEach` (DirTree.h), instrumented as a trace.  `fuel` bounds
the recursion depth (the source is bounded only by the host call stack).
Match pass: open a `FileItr` on the pattern and visit every positioned
entry's composed spec.  In `YesSubFolders` mode, split the pattern into
vol/dir/file, open a second `FileItr` on `FileSpec(vol, dir, "*")`, and for
every entry whose attributes say folder, recurse on
`FileSpec(vol, dir + i->GetFile(), file)` with the same mode. -/
def ForEachTrace (listing : Str → List Entry) : Nat → Str → Mode → List Ev
  | 0, _, _ => []
  | fuel + 1, pattern, mode =>
    let firstPass := Ev.openEnum pattern :: (itrList listing pattern).map (fun p => Ev.visit p.2)
    match mode with
    | .NoSubFolders => firstPass
    | .YesSubFolders =>
      let vol := GetVol pattern
      let dir := GetDir pattern
      let file := GetFile pattern
      let localSpec := mkFileSpec3 vol dir ['*']
      firstPass ++ Ev.openEnum localSpec ::
        (itrList listing localSpec).flatMap
          (fun p =>
            if p.1.isDir then
              Ev.recurse (mkFileSpec3 vol (dir ++ GetFile p.2) file) ::
                ForEachTrace listing fuel (mkFileSpec3 vol (dir ++ GetFile p.2) file) mode
            else [])

/-- Recognizer for `Ev.openEnum` events. -/
def isOpenEv : Ev → Bool
  | .openEnum _ => true
  | _ => false

/-- Recognizer for `Ev.recurse` events. -/
def isRecurseEv : Ev → Bool
  | .recurse _ => true
  | _ => false

/-- A tiny concrete listing oracle used to instantiate the traversal
theorems: the current level holds one subfolder `sub` and one file `a.txt`;
every other pattern lists nothing. -/
def demoListing : Str → List Entry :=
  fun q => if q = ['*'] then [⟨['s', 'u', 'b'], true⟩, ⟨['a', '.', 't', 'x', 't'], false⟩] else []

/-! ## Characterization of `rfindPos` (`std::string::rfind`) -/

-- If `rfind` returns an index, the character is there.
theorem rfindPos_get {s : Str} {c : Char} {p : Nat} (h : rfindPos s c = some p) :
    s.get? p = some c := by
  induction s generalizing p with
  | nil => simp [rfindPos] at h
  | cons a as ih =>
    rw [rfindPos] at h
    cases hr : rfindPos as c with
    | some i =>
      rw [hr] at h
      injection h with h
      subst h
      exact ih hr
    | none =>
      rw [hr] at h
      by_cases hac : a = c
      · rw [if_pos hac] at h
        injection h with h
        subst h
        simpa using hac
      · rw [if_neg hac] at h
        exact absurd h (by simp)

-- `rfind` misses exactly when the character is absent.
theorem rfindPos_eq_none {s : Str} {c : Char} : rfindPos s c = none ↔ c ∉ s := by
  induction s with
  | nil => simp [rfindPos]
  | cons a as ih =>
    rw [rfindPos]
    cases hr : rfindPos as c with
    | some i =>
      have hmem : c ∈ as := List.get?_mem (rfindPos_get hr)
      simp [hmem]
    | none =>
      have hnotmem : c ∉ as := ih.mp hr
      by_cases hac : a = c
      · simp [if_pos hac, hac]
      · rw [if_neg hac]
        constructor
        · intro _ hmem
          rcases List.mem_cons.mp hmem with h | h
          · exact hac h.symm
          · exact hnotmem h
        · intro _
          rfl

-- `rfind` returns the LAST occurrence: nothing beyond it matches.
theorem rfindPos_last {s : Str} {c : Char} {p : Nat} (h : rfindPos s c = some p) :
    ∀ q, p < q → s.get? q ≠ some c := by
  induction s generalizing p with
  | nil => simp [rfindPos] at h
  | cons a as ih =>
    rw [rfindPos] at h
    cases hr : rfindPos as c with
    | some i =>
      rw [hr] at h
      injection h with h
      subst h
      intro q hq
      match q, hq with
      | q' + 1, hq =>
        show as.get? q' ≠ some c
        exact ih hr q' (by omega)
    | none =>
      rw [hr] at h
      by_cases hac : a = c
      · rw [if_pos hac] at h
        injection h with h
        subst h
        intro q hq
        match q, hq with
        | q' + 1, _ =>
          show as.get? q' ≠ some c
          intro hget
          exact (rfindPos_eq_none.mp hr) (List.get?_mem hget)
      · rw [if_neg hac] at h
        exact absurd h (by simp)

-- Converse: an occurrence that is rightmost is the one `rfind` returns.
theorem rfindPos_of_get {s : Str} {c : Char} {p : Nat} (hp : s.get? p = some c)
    (hmax : ∀ q, p < q → s.get? q ≠ some c) : rfindPos s c = some p := by
  cases h : rfindPos s c with
  | none => exact absurd (List.get?_mem hp) (rfindPos_eq_none.mp h)
  | some r =>
    rcases Nat.lt_trichotomy p r with hlt | heq | hgt
    · exact absurd (rfindPos_get h) (hmax r hlt)
    · rw [heq]
    · exact absurd hp (rfindPos_last h p hgt)

theorem rfindPos_lt_length {s : Str} {c : Char} {p : Nat} (h : rfindPos s c = some p) :
    p < s.length :=
  (List.get?_eq_some.mp (rfindPos_get h)).1

/-! ## Boundary lemmas for `ParseSpec` -/

theorem volEnd_def (s : Str) : (ParseSpec s).volEnd = if bHaveVolSep s then 2 else 0 := rfl

theorem dirEnd_def (s : Str) :
    (ParseSpec s).dirEnd =
      match rfindPos s '\\' with
      | some d => d + 1
      | none => if bHaveVolSep s then 2 else 0 := rfl

theorem fileEnd_def (s : Str) :
    (ParseSpec s).fileEnd =
      if bHaveFileSep s then (rfindPos s '.').getD s.length else s.length := rfl

theorem extBegin_def (s : Str) :
    (ParseSpec s).extBegin =
      if bHaveFileSep s then (rfindPos s '.').getD s.length + 1 else s.length := rfl

theorem extEnd_def (s : Str) : (ParseSpec s).extEnd = s.length := rfl

theorem bHaveVolSep_iff {s : Str} : bHaveVolSep s = true ↔ s.get? 1 = some ':' := by
  simp [bHaveVolSep]

-- When a valid extension separator exists, it is the rightmost period and
-- lies strictly beyond every directory separator.
theorem bHaveFileSep_elim {s : Str} (h : bHaveFileSep s = true) :
    ∃ f, rfindPos s '.' = some f ∧ ∀ d, rfindPos s '\\' = some d → d < f := by
  unfold bHaveFileSep at h
  cases hf : rfindPos s '.' with
  | none => rw [hf] at h; cases hd : rfindPos s '\\' <;> rw [hd] at h <;> simp at h
  | some f =>
    refine ⟨f, rfl, ?_⟩
    intro d hd
    rw [hf, hd] at h
    exact of_decide_eq_true h

theorem bHaveFileSep_intro {s : Str} {f : Nat} (hf : rfindPos s '.' = some f)
    (hd : ∀ d, rfindPos s '\\' = some d → d < f) : bHaveFileSep s = true := by
  unfold bHaveFileSep
  rw [hf]
  cases hrd : rfindPos s '\\' with
  | none => rfl
  | some d => exact decide_eq_true (hd d hrd)

theorem volEnd_of_sep {s : Str} (h : s.get? 1 = some ':') : (ParseSpec s).volEnd = 2 := by
  rw [volEnd_def, if_pos (bHaveVolSep_iff.mpr h)]

theorem volEnd_of_nosep {s : Str} (h : s.get? 1 ≠ some ':') : (ParseSpec s).volEnd = 0 := by
  rw [volEnd_def, if_neg (fun hb => h (bHaveVolSep_iff.mp hb))]

theorem dirEnd_of_some {s : Str} {d : Nat} (hd : rfindPos s '\\' = some d) :
    (ParseSpec s).dirEnd = d + 1 := by
  rw [dirEnd_def, hd]

theorem dirEnd_of_none {s : Str} (hd : rfindPos s '\\' = none) :
    (ParseSpec s).dirEnd = (ParseSpec s).volEnd := by
  rw [dirEnd_def, hd, volEnd_def]

theorem fileEnd_of_sep {s : Str} {f : Nat} (hb : bHaveFileSep s = true)
    (hf : rfindPos s '.' = some f) :
    (ParseSpec s).fileEnd = f ∧ (ParseSpec s).extBegin = f + 1 := by
  constructor
  · rw [fileEnd_def, if_pos hb, hf]
    rfl
  · rw [extBegin_def, if_pos hb, hf]
    rfl

theorem fileEnd_of_nosep {s : Str} (hb : bHaveFileSep s = false) :
    (ParseSpec s).fileEnd = s.length ∧ (ParseSpec s).extBegin = s.length := by
  constructor
  · rw [fileEnd_def, if_neg (by simp [hb])]
  · rw [extBegin_def, if_neg (by simp [hb])]

theorem volEnd_le_length (s : Str) : (ParseSpec s).volEnd ≤ s.length := by
  by_cases h1 : s.get? 1 = some ':'
  · rw [volEnd_of_sep h1]
    have := (List.get?_eq_some.mp h1).1
    omega
  · rw [volEnd_of_nosep h1]
    omega

theorem dirEnd_le_length (s : Str) : (ParseSpec s).dirEnd ≤ s.length := by
  cases hd : rfindPos s '\\' with
  | some d =>
    rw [dirEnd_of_some hd]
    have := rfindPos_lt_length hd
    omega
  | none =>
    rw [dirEnd_of_none hd]
    exact volEnd_le_length s

theorem fileEnd_le_length (s : Str) : (ParseSpec s).fileEnd ≤ s.length := by
  by_cases hb : bHaveFileSep s = true
  · rcases bHaveFileSep_elim hb with ⟨f, hf, -⟩
    rw [(fileEnd_of_sep hb hf).1]
    exact Nat.le_of_lt (rfindPos_lt_length hf)
  · rw [(fileEnd_of_nosep (by simpa using hb)).1]

theorem extBegin_le_length (s : Str) (h : bHaveFileSep s = true) :
    (ParseSpec s).extBegin ≤ s.length := by
  rcases bHaveFileSep_elim h with ⟨f, hf, -⟩
  rw [(fileEnd_of_sep h hf).2]
  exact rfindPos_lt_length hf

-- `Validate`'s volume check: a present volume separator forces an
-- alphabetic first character.
theorem volumeValid_alpha {s : Str} (hv : volumeValid s = true)
    (h1 : s.get? 1 = some ':') : ∃ c0, s.get? 0 = some c0 ∧ c0.isAlpha = true := by
  match s with
  | [] => exact absurd h1 (by simp)
  | [c0] => exact absurd h1 (by simp)
  | c0 :: c1 :: rest =>
    have hc1 : c1 = ':' := by simpa using h1
    subst hc1
    refine ⟨c0, rfl, ?_⟩
    simpa [volumeValid] using hv

theorem volEnd_le_dirEnd {s : Str} (hv : volumeValid s = true) :
    (ParseSpec s).volEnd ≤ (ParseSpec s).dirEnd := by
  cases hd : rfindPos s '\\' with
  | none => rw [dirEnd_of_none hd]
  | some d =>
    rw [dirEnd_of_some hd]
    by_cases h1 : s.get? 1 = some ':'
    · rw [volEnd_of_sep h1]
      rcases volumeValid_alpha hv h1 with ⟨c0, h0, ha⟩
      rcases Nat.eq_zero_or_pos d with hz | hpos
      · subst hz
        have hbs := rfindPos_get hd
        rw [h0] at hbs
        injection hbs with hbs
        subst hbs
        exact absurd ha (by decide)
      · omega
    · rw [volEnd_of_nosep h1]
      omega

theorem dirEnd_le_fileEnd {s : Str} (hv : volumeValid s = true) :
    (ParseSpec s).dirEnd ≤ (ParseSpec s).fileEnd := by
  by_cases hb : bHaveFileSep s = true
  · rcases bHaveFileSep_elim hb with ⟨f, hf, hfd⟩
    rw [(fileEnd_of_sep hb hf).1]
    cases hd : rfindPos s '\\' with
    | some d =>
      rw [dirEnd_of_some hd]
      have := hfd d hd
      omega
    | none =>
      rw [dirEnd_of_none hd]
      by_cases h1 : s.get? 1 = some ':'
      · rw [volEnd_of_sep h1]
        rcases volumeValid_alpha hv h1 with ⟨c0, h0, ha⟩
        have hdot := rfindPos_get hf
        rcases f with _ | (_ | f)
        · rw [h0] at hdot
          injection hdot with hdot
          subst hdot
          exact absurd ha (by decide)
        · rw [h1] at hdot
          exact absurd hdot (by decide)
        · omega
      · rw [volEnd_of_nosep h1]
        omega
  · rw [(fileEnd_of_nosep (by simpa using hb)).1]
    exact dirEnd_le_length s

/-! ## Span algebra for `extract` -/

theorem GetVol_eq_take (s : Str) : GetVol s = s.take (ParseSpec s).volEnd := by
  simp [GetVol, extract]

theorem GetExtension_eq_drop (s : Str) : GetExtension s = s.drop (ParseSpec s).extBegin := by
  simp [GetExtension, extract, extEnd_def, List.take_length]

theorem GetFile_eq_drop (s : Str) : GetFile s = s.drop (ParseSpec s).dirEnd := by
  simp [GetFile, extract, extEnd_def, List.take_length]

theorem take_append_extract {s : Str} {i j : Nat} (h : i ≤ j) :
    s.take i ++ extract s i j = s.take j := by
  rw [extract, show s.take i = (s.take j).take i by
    rw [List.take_take, Nat.min_eq_left h]]
  exact List.take_append_drop i (s.take j)

theorem extract_append_drop {s : Str} {i j : Nat} (hij : i ≤ j) :
    extract s i j ++ s.drop j = s.drop i := by
  rw [extract, List.drop_take j i s]
  have h := List.drop_take_append_drop s i (j - i)
  rwa [show i + (j - i) = j by omega] at h

-- Dropping at a position holding `'.'` peels off exactly that period.
theorem drop_eq_dot_cons {s : Str} {f : Nat} (hg : s.get? f = some '.') :
    s.drop f = '.' :: s.drop (f + 1) := by
  rcases List.get?_eq_some.mp hg with ⟨hlt, hget⟩
  rw [List.get_eq_getElem] at hget
  rw [← hget]
  exact (List.getElem_cons_drop s f hlt).symm

/-! ## Reassembly of the four components -/

-- The reassembly identity, with the separator emitted exactly when the
-- parse found a valid extension separator.
theorem parse_reassembly {s : Str} (hv : volumeValid s = true) :
    GetVol s ++ GetDir s ++ GetFileNoExtension s ++
      (if bHaveFileSep s then '.' :: GetExtension s else []) = s := by
  have h12 := volEnd_le_dirEnd hv
  have h23 := dirEnd_le_fileEnd hv
  have e1 : GetVol s ++ GetDir s = s.take (ParseSpec s).dirEnd := by
    rw [GetVol_eq_take, GetDir]
    exact take_append_extract h12
  have e2 : s.take (ParseSpec s).dirEnd ++ GetFileNoExtension s =
      s.take (ParseSpec s).fileEnd := by
    rw [GetFileNoExtension]
    exact take_append_extract h23
  rw [e1, e2]
  by_cases hb : bHaveFileSep s = true
  · rcases bHaveFileSep_elim hb with ⟨f, hf, -⟩
    rcases fileEnd_of_sep hb hf with ⟨hfe, heb⟩
    rw [if_pos hb, GetExtension_eq_drop, heb, hfe,
      ← drop_eq_dot_cons (rfindPos_get hf)]
    exact List.take_append_drop f s
  · have hb' : bHaveFileSep s = false := by simpa using hb
    rw [if_neg hb, (fileEnd_of_nosep hb').1, List.take_length, List.append_nil]

-- `GetFile` (stem + separator + extension) decomposed, separator present.
theorem GetFile_decomp_sep {s : Str} (hv : volumeValid s = true)
    (hb : bHaveFileSep s = true) :
    GetFile s = GetFileNoExtension s ++ '.' :: GetExtension s := by
  have h23 := dirEnd_le_fileEnd hv
  rcases bHaveFileSep_elim hb with ⟨f, hf, -⟩
  rcases fileEnd_of_sep hb hf with ⟨hfe, heb⟩
  have hdrop : s.drop (ParseSpec s).fileEnd = '.' :: s.drop (ParseSpec s).extBegin := by
    rw [hfe, heb]
    exact drop_eq_dot_cons (rfindPos_get hf)
  rw [GetFile_eq_drop, GetExtension_eq_drop, ← hdrop, GetFileNoExtension]
  exact (extract_append_drop h23).symm

-- `GetFile` decomposed, no separator: it is exactly the stem.
theorem GetFile_decomp_nosep {s : Str} (hv : volumeValid s = true)
    (hb : bHaveFileSep s = false) : GetFile s = GetFileNoExtension s := by
  have h23 := dirEnd_le_fileEnd hv
  rw [GetFile_eq_drop, GetFileNoExtension,
    ← extract_append_drop h23, (fileEnd_of_nosep hb).1, List.drop_length,
    List.append_nil]

-- With no separator the extension span is empty.
theorem GetExtension_of_nosep {s : Str} (hb : bHaveFileSep s = false) :
    GetExtension s = [] := by
  rw [GetExtension_eq_drop, (fileEnd_of_nosep hb).2, List.drop_length]

-- The filename component is empty iff the stem is empty and no separator
-- was found.
theorem GetFile_eq_nil_iff {s : Str} (hv : volumeValid s = true) :
    GetFile s = [] ↔ (GetFileNoExtension s = [] ∧ bHaveFileSep s = false) := by
  by_cases hb : bHaveFileSep s = true
  · rw [GetFile_decomp_sep hv hb]
    simp [hb]
  · have hb' : bHaveFileSep s = false := by simpa using hb
    rw [GetFile_decomp_nosep hv hb']
    simp [hb']

/-! ## Claim theorems -/

/-- C1, counterexample: the claim's reassembly formula — emit the `'.'`
separator iff the extension is non-empty — does NOT reproduce the original
string for `"file."`: the split yields stem `"file"` and empty extension,
so the claimed composition gives `"file"`, losing the trailing period. -/
theorem C1_counterexample :
    ¬ (GetVol ("file.".toList) ++ GetDir ("file.".toList) ++
        GetFileNoExtension ("file.".toList) ++
        (if (GetExtension ("file.".toList)).isEmpty then []
          else '.' :: GetExtension ("file.".toList)) = "file.".toList) := by
  decide

/-- C1 (amended): for every path string accepted by `Validate`'s volume check,
reassembling volume + directory + stem + (`'.'` + extension if the parse
found a valid extension separator, else nothing) reproduces the original
string byte-for-byte. -/
theorem C1_roundtrip (s : Str) (hv : volumeValid s = true) :
    GetVol s ++ GetDir s ++ GetFileNoExtension s ++
      (if bHaveFileSep s then '.' :: GetExtension s else []) = s :=
  parse_reassembly hv

/-- C1, witness: the round-trip at `"a:\dir\file.ext"`. -/
theorem C1_roundtrip_witness :
    volumeValid ("a:\\dir\\file.ext".toList) = true ∧
    GetVol ("a:\\dir\\file.ext".toList) ++ GetDir ("a:\\dir\\file.ext".toList) ++
      GetFileNoExtension ("a:\\dir\\file.ext".toList) ++
      (if bHaveFileSep ("a:\\dir\\file.ext".toList) then
        '.' :: GetExtension ("a:\\dir\\file.ext".toList) else []) =
      "a:\\dir\\file.ext".toList :=
  ⟨by decide, C1_roundtrip _ (by decide)⟩

/-- C2: the extension separator chosen by the split is the rightmost `'.'`
of the string, valid exactly when it lies strictly after every directory
separator (or none exists); and the two spec examples:
`split("dir.ext\file.ext")` = (`""`, `"dir.ext\"`, `"file"`, `"ext"`) and
`split("file.ex.longext")` = (`""`, `""`, `"file.ex"`, `"longext"`). -/
theorem C2_extension_separator (s : Str) :
    (bHaveFileSep s = true ↔
      ∃ p, s.get? p = some '.' ∧ (∀ q, p < q → s.get? q ≠ some '.') ∧
        (∀ d, s.get? d = some '\\' → d < p)) ∧
    (∀ p, s.get? p = some '.' → (∀ q, p < q → s.get? q ≠ some '.') →
      bHaveFileSep s = true →
      (ParseSpec s).fileEnd = p ∧ (ParseSpec s).extBegin = p + 1) ∧
    Split4 ("dir.ext\\file.ext".toList) =
      ([], "dir.ext\\".toList, "file".toList, "ext".toList) ∧
    Split4 ("file.ex.longext".toList) =
      ([], [], "file.ex".toList, "longext".toList) := by
  refine ⟨⟨?_, ?_⟩, ?_, by decide, by decide⟩
  · intro hb
    rcases bHaveFileSep_elim hb with ⟨f, hf, hfd⟩
    refine ⟨f, rfindPos_get hf, rfindPos_last hf, ?_⟩
    intro d hd
    cases hdm : rfindPos s '\\' with
    | none => exact absurd (List.get?_mem hd) (rfindPos_eq_none.mp hdm)
    | some dm =>
      have hdmf := hfd dm hdm
      by_cases hle : d ≤ dm
      · omega
      · exact absurd hd (rfindPos_last hdm d (by omega))
  · rintro ⟨p, hp, hmax, hdirs⟩
    apply bHaveFileSep_intro (rfindPos_of_get hp hmax)
    intro d hd
    exact hdirs d (rfindPos_get hd)
  · intro p hp hmax hb
    exact fileEnd_of_sep hb (rfindPos_of_get hp hmax)

/-- C2, witness: in `"file.ex.longext"` the rightmost period sits at index 7
and the split places `fileEnd` there and `extBegin` just after it. -/
theorem C2_extension_separator_witness :
    bHaveFileSep ("file.ex.longext".toList) = true ∧
    (ParseSpec ("file.ex.longext".toList)).fileEnd = 7 ∧
    (ParseSpec ("file.ex.longext".toList)).extBegin = 8 :=
  ⟨by decide,
    (C2_extension_separator ("file.ex.longext".toList)).2.1 7 (by decide)
      (rfindPos_last (show rfindPos ("file.ex.longext".toList) '.' = some 7 by decide))
      (by decide)⟩

/-- C3, counterexample: for the string `"."`, `IsFile` returns true although
the stem is empty — the code classifies on the full filename span
(stem + separator + extension), not on the stem alone as claimed. -/
theorem C3_counterexample :
    ¬ (IsFile ['.'] = true ↔ GetFileNoExtension ['.'] ≠ []) := by
  decide

/-- C3 (amended): for every path string accepted by `Validate`'s volume
check, `IsFolder` is true iff stem and extension are empty AND the parse
found no extension separator AND volume or directory is non-empty;
`IsFile` is true iff the stem is non-empty OR an extension separator was
found; for the empty string both are false. -/
theorem C3_classification (s : Str) (hv : volumeValid s = true) :
    (IsFolder s = true ↔
      (GetFileNoExtension s = [] ∧ GetExtension s = [] ∧ bHaveFileSep s = false ∧
        (GetVol s ≠ [] ∨ GetDir s ≠ []))) ∧
    (IsFile s = true ↔ (GetFileNoExtension s ≠ [] ∨ bHaveFileSep s = true)) ∧
    (s = [] → IsFolder s = false ∧ IsFile s = false) := by
  have hGFiff := GetFile_eq_nil_iff hv
  have hfold : IsFolder s = true ↔
      (GetFile s = [] ∧ (GetVol s ≠ [] ∨ GetDir s ≠ [])) := by
    rw [IsFolder]
    cases hemp : (GetFile s).isEmpty <;> simp_all
  have hfile : IsFile s = true ↔ GetFile s ≠ [] := by
    simp [IsFile]
  refine ⟨?_, ?_, ?_⟩
  · rw [hfold]
    constructor
    · rintro ⟨hnil, hvd⟩
      rcases hGFiff.mp hnil with ⟨hst, hsep⟩
      exact ⟨hst, GetExtension_of_nosep hsep, hsep, hvd⟩
    · rintro ⟨hst, -, hsep, hvd⟩
      exact ⟨hGFiff.mpr ⟨hst, hsep⟩, hvd⟩
  · rw [hfile]
    constructor
    · intro h
      by_cases hst : GetFileNoExtension s = []
      · by_cases hb : bHaveFileSep s = true
        · exact Or.inr hb
        · exact absurd (hGFiff.mpr ⟨hst, by simpa using hb⟩) h
      · exact Or.inl hst
    · intro h hnil
      rcases hGFiff.mp hnil with ⟨h1, h2⟩
      rcases h with hst | hb
      · exact hst h1
      · rw [hb] at h2
        cases h2
  · intro hnil
    subst hnil
    constructor <;> decide

/-- C3, witness: `"..\"` is classified as a folder. -/
theorem C3_classification_witness :
    volumeValid ("..\\".toList) = true ∧ IsFolder ("..\\".toList) = true :=
  ⟨by decide, ((C3_classification ("..\\".toList) (by decide)).1).mpr (by decide)⟩

/-- C4: the split's volume component is non-empty iff the second character
is the volume separator `':'`, in which case it is exactly the first two
characters; and `split("a:")` yields volume `"a:"` with everything else
empty. -/
theorem C4_volume (s : Str) :
    (GetVol s ≠ [] ↔ s.get? 1 = some ':') ∧
    GetVol s = (if s.get? 1 = some ':' then s.take 2 else []) ∧
    Split4 ("a:".toList) = ("a:".toList, [], [], []) := by
  refine ⟨?_, ?_, by decide⟩
  · by_cases h1 : s.get? 1 = some ':'
    · rw [GetVol_eq_take, volEnd_of_sep h1]
      simp only [h1, iff_true]
      have := (List.get?_eq_some.mp h1).1
      cases s with
      | nil => simp at this
      | cons a as => simp
    · rw [GetVol_eq_take, volEnd_of_nosep h1, List.take_zero]
      exact ⟨fun h => absurd rfl h, fun h => absurd h h1⟩
  · by_cases h1 : s.get? 1 = some ':'
    · rw [GetVol_eq_take, volEnd_of_sep h1, if_pos h1]
    · rw [GetVol_eq_take, volEnd_of_nosep h1, if_neg h1, List.take_zero]

/-- C5 (code bug): the four-part constructor decides the extension separator
by inspecting the LAST character of `ext` (`*ext.rbegin()`), not the first
as the spec states; at `vol=dir=""`, `file="file"`, `ext=".mp3"` the code
produces `"file..mp3"` whereas the spec's first-character rule produces
`"file.mp3"`. -/
theorem C5_constructor_behavior :
    mkFileSpec4 [] [] ("file".toList) (".mp3".toList) = "file..mp3".toList ∧
    mkFileSpec4ByFirstChar [] [] ("file".toList) (".mp3".toList) = "file.mp3".toList ∧
    mkFileSpec4 [] [] ("file".toList) (".mp3".toList) ≠
      mkFileSpec4ByFirstChar [] [] ("file".toList) (".mp3".toList) := by
  decide

/-- C10: whenever the parse finds a valid extension separator, the filename
component satisfies `GetFile = GetFileNoExtension ++ "." ++ GetExtension`
(including an empty extension, as in `"file."`); with no valid separator,
`GetFile = GetFileNoExtension`. -/
theorem C10_file_decomposition (s : Str) (hv : volumeValid s = true) :
    (bHaveFileSep s = true →
      GetFile s = GetFileNoExtension s ++ '.' :: GetExtension s) ∧
    (bHaveFileSep s = false → GetFile s = GetFileNoExtension s) :=
  ⟨fun hb => GetFile_decomp_sep hv hb, fun hb => GetFile_decomp_nosep hv hb⟩

/-- C10, witness: at `"file."` the separator was found, the extension is
empty, and `GetFile` keeps the trailing period. -/
theorem C10_file_decomposition_witness :
    volumeValid ("file.".toList) = true ∧ bHaveFileSep ("file.".toList) = true ∧
    GetExtension ("file.".toList) = [] ∧
    GetFile ("file.".toList) =
      GetFileNoExtension ("file.".toList) ++ '.' :: GetExtension ("file.".toList) :=
  ⟨by decide, by decide, by decide,
    (C10_file_decomposition ("file.".toList) (by decide)).1 (by decide)⟩

/-! ## The enumerator state machine -/

-- A positioned cursor holds a non-special entry, and cursor-plus-remainder
-- is a suffix of the raw listing.
theorem skip_sound {L : List Entry} {e : Entry} {rest : List Entry}
    (h : skipSpecialFolders L = some (e, rest)) :
    isSpecial e = false ∧ (e :: rest) <:+ L := by
  induction L with
  | nil => simp [skipSpecialFolders] at h
  | cons a as ih =>
    rw [skipSpecialFolders] at h
    by_cases hs : isSpecial a = true
    · rw [if_pos hs] at h
      rcases ih h with ⟨h1, h2⟩
      exact ⟨h1, h2.trans (List.suffix_cons a as)⟩
    · rw [if_neg hs] at h
      injection h with h
      cases h
      exact ⟨by simpa using hs, List.suffix_refl _⟩

-- Any reachable positioned state holds a non-special entry drawn from the
-- raw listing.
theorem itrState_sound {L : List Entry} {n : Nat} {e : Entry} {rest : List Entry}
    (h : itrState L n = some (e, rest)) :
    isSpecial e = false ∧ (e :: rest) <:+ L := by
  induction n generalizing e rest with
  | zero => exact skip_sound h
  | succ n ih =>
    rw [itrState] at h
    cases hprev : itrState L n with
    | none =>
      rw [hprev] at h
      exact absurd h (by simp [itrStep])
    | some pr =>
      rw [hprev] at h
      rcases pr with ⟨e', rest'⟩
      rcases ih hprev with ⟨-, hsuf⟩
      rw [itrStep] at h
      rcases skip_sound h with ⟨h1, h2⟩
      exact ⟨h1, h2.trans ((List.suffix_cons e' rest').trans hsuf)⟩

/-- C8: over any raw OS listing in which every entry named `"."` or `".."`
carries the directory flag (as the OS guarantees), every reachable
positioned state of the enumerator — right after open, and after any number
of increments — holds an entry named neither `"."` nor `".."`. -/
theorem C8_never_special (L : List Entry) (n : Nat) (e : Entry) (rest : List Entry)
    (hos : ∀ x ∈ L, (x.name = ['.'] ∨ x.name = ['.', '.']) → x.isDir = true)
    (h : itrState L n = some (e, rest)) :
    e.name ≠ ['.'] ∧ e.name ≠ ['.', '.'] := by
  rcases itrState_sound h with ⟨hns, hsuf⟩
  have hmem : e ∈ L := hsuf.mem (List.mem_cons_self e rest)
  constructor
  · intro hname
    have hd := hos e hmem (Or.inl hname)
    rw [isSpecial, hd, hname] at hns
    simp at hns
  · intro hname
    have hd := hos e hmem (Or.inr hname)
    rw [isSpecial, hd, hname] at hns
    simp at hns

/-- C8, witness: a listing starting with the special folders `.` and `..`
followed by a file `a`; the freshly opened enumerator is positioned on `a`. -/
theorem C8_never_special_witness :
    itrState [⟨['.'], true⟩, ⟨['.', '.'], true⟩, ⟨['a'], false⟩] 0 =
      some (⟨['a'], false⟩, []) ∧
    (Entry.mk ['a'] false).name ≠ ['.'] ∧ (Entry.mk ['a'] false).name ≠ ['.', '.'] :=
  ⟨by decide,
    C8_never_special [⟨['.'], true⟩, ⟨['.', '.'], true⟩, ⟨['a'], false⟩] 0
      ⟨['a'], false⟩ [] (by decide) (by decide)⟩

/-- C9: when the OS listing primitive fails to open the pattern, the
enumerator reports no current entry, and its `IsNetworkAvailable` flag is
false exactly when the failure code is `ERROR_BAD_NETPATH`; on a successful
open the flag stays true. -/
theorem C9_open_failure (code : Nat) (entries : List Entry) :
    ItrExists (fileItrInit (OpenResult.err code)) = false ∧
    (IsNetworkAvailable (fileItrInit (OpenResult.err code)) = false ↔
      code = ERROR_BAD_NETPATH) ∧
    IsNetworkAvailable (fileItrInit (OpenResult.ok entries)) = true := by
  refine ⟨rfl, ?_, rfl⟩
  by_cases h : code = ERROR_BAD_NETPATH <;>
    simp [fileItrInit, IsNetworkAvailable, h]

/-! ## The skip-based cursor enumerates exactly `enumAll` -/

theorem enumAll_of_skip_none {L : List Entry} (h : skipSpecialFolders L = none) :
    enumAll L = [] := by
  induction L with
  | nil => rfl
  | cons a as ih =>
    rw [skipSpecialFolders] at h
    by_cases hs : isSpecial a = true
    · rw [enumAll, if_pos hs]
      exact ih (by rwa [if_pos hs] at h)
    · rw [if_neg hs] at h
      cases h

theorem enumAll_of_skip_some {L : List Entry} {e : Entry} {r : List Entry}
    (h : skipSpecialFolders L = some (e, r)) : enumAll L = e :: enumAll r := by
  induction L with
  | nil => simp [skipSpecialFolders] at h
  | cons a as ih =>
    rw [skipSpecialFolders] at h
    by_cases hs : isSpecial a = true
    · rw [enumAll, if_pos hs]
      exact ih (by rwa [if_pos hs] at h)
    · rw [if_neg hs] at h
      injection h with h
      cases h
      rw [enumAll, if_neg hs]

theorem itrState_none_all {L : List Entry} (h : skipSpecialFolders L = none) :
    ∀ n, itrState L n = none := by
  intro n
  induction n with
  | zero => exact h
  | succ n ih => rw [itrState, ih, itrStep]

theorem itrState_succ_of_skip {L : List Entry} {e : Entry} {r : List Entry}
    (h : skipSpecialFolders L = some (e, r)) :
    ∀ n, itrState L (n + 1) = itrState r n := by
  intro n
  induction n with
  | zero =>
    show itrStep (itrState L 0) = skipSpecialFolders r
    rw [show itrState L 0 = skipSpecialFolders L from rfl, h, itrStep]
  | succ n ih =>
    show itrStep (itrState L (n + 1)) = itrStep (itrState r n)
    rw [ih]

-- Bridge between the C8 state machine and the `enumAll` filter used by the
-- traversal model: the entry under the cursor after `n` increments is the
-- `n`-th element of `enumAll`.
theorem itrState_eq_enumAll (L : List Entry) (n : Nat) :
    (itrState L n).map Prod.fst = (enumAll L).get? n := by
  induction n generalizing L with
  | zero =>
    cases h : skipSpecialFolders L with
    | none => rw [enumAll_of_skip_none h, show itrState L 0 = none from h]; rfl
    | some p =>
      rcases p with ⟨e, r⟩
      rw [enumAll_of_skip_some h, show itrState L 0 = some (e, r) from h]
      rfl
  | succ n ih =>
    cases h : skipSpecialFolders L with
    | none =>
      rw [itrState_none_all h (n + 1), enumAll_of_skip_none h]
      rfl
    | some p =>
      rcases p with ⟨e, r⟩
      rw [itrState_succ_of_skip h n, enumAll_of_skip_some h]
      exact ih r

/-! ## Shallow mode -/

/-- C7: in `NoSubFolders` mode the walk performs only the match pass: its
trace contains no recursion event, and the only enumerator ever opened is
the one on the caller's own pattern (none at all if the fuel bound is 0). -/
theorem C7_shallow_no_recursion (listing : Str → List Entry) (fuel : Nat) (pat : Str) :
    (ForEachTrace listing fuel pat Mode.NoSubFolders).filter isRecurseEv = [] ∧
    (ForEachTrace listing fuel pat Mode.NoSubFolders).filter isOpenEv =
      (if fuel = 0 then [] else [Ev.openEnum pat]) := by
  cases fuel with
  | zero => exact ⟨rfl, rfl⟩
  | succ n =>
    rw [ForEachTrace]
    constructor
    · simp [List.filter_map, isRecurseEv, isOpenEv, Function.comp]
    · simp [List.filter_map, isRecurseEv, isOpenEv, Function.comp]

/-! ## Parsing a volume-directory-name concatenation -/

theorem extract_nil_of_le {s : Str} {i j : Nat} (h : j ≤ i) : extract s i j = [] := by
  rw [extract]
  apply List.drop_eq_nil_of_le
  rw [List.length_take]
  omega

theorem get?_ne_of_not_mem {t : Str} {c : Char} (h : c ∉ t) (k : Nat) :
    t.get? k ≠ some c :=
  fun hg => h (List.get?_mem hg)

theorem get1_of_take {s : Str} {j : Nat} (h : 2 ≤ (s.take j).length) :
    (s.take j).get? 1 = s.get? 1 := by
  have hj : 1 < j := by rw [List.length_take] at h; omega
  rw [List.get?_eq_getElem?, List.get?_eq_getElem?, List.getElem?_take, if_pos hj]

theorem extract_getLast {s : Str} {i j : Nat} (hij : i < j) (hj : j ≤ s.length) :
    (extract s i j).getLast? = s.get? (j - 1) := by
  rw [extract, List.getLast?_eq_getElem? _]
  have hlen : ((s.take j).drop i).length = j - i := by
    rw [List.length_drop, List.length_take]
    omega
  rw [hlen, List.getElem?_drop, show i + (j - i - 1) = j - 1 by omega,
    List.getElem?_take, if_pos (show j - 1 < j by omega), ← List.get?_eq_getElem?]

-- The parsed volume is empty or a letter-colon pair (the letter given by
-- `Validate`'s check).
theorem GetVol_shape_valid {s : Str} (hv : volumeValid s = true) :
    GetVol s = [] ∨ ∃ c0, GetVol s = [c0, ':'] ∧ c0 ≠ '\\' := by
  by_cases h1 : s.get? 1 = some ':'
  · right
    rcases volumeValid_alpha hv h1 with ⟨c0, h0, ha⟩
    refine ⟨c0, ?_, fun hc => by rw [hc] at ha; exact absurd ha (by decide)⟩
    rw [GetVol_eq_take, volEnd_of_sep h1]
    cases s with
    | nil => exact absurd h0 (by simp)
    | cons a as =>
      cases as with
      | nil => exact absurd h1 (by simp)
      | cons b rest =>
        have ha' : a = c0 := by simpa using h0
        have hb : b = ':' := by simpa using h1
        rw [ha', hb]
        rfl
  · left
    rw [GetVol_eq_take, volEnd_of_nosep h1, List.take_zero]

theorem GetVol_nil_get1 {s : Str} (h : GetVol s = []) : s.get? 1 ≠ some ':' := by
  intro h1
  rw [GetVol_eq_take, volEnd_of_sep h1] at h
  cases s with
  | nil => exact absurd h1 (by simp)
  | cons a as => simp [List.take] at h

-- The parsed directory is empty or ends in a backslash.
theorem GetDir_shape (s : Str) : GetDir s = [] ∨ (GetDir s).getLast? = some '\\' := by
  cases hd : rfindPos s '\\' with
  | none =>
    left
    rw [GetDir, dirEnd_of_none hd]
    exact extract_nil_of_le (Nat.le_refl _)
  | some dpos =>
    by_cases hlt : (ParseSpec s).volEnd < dpos + 1
    · right
      rw [GetDir, dirEnd_of_some hd,
        extract_getLast hlt (rfindPos_lt_length hd), Nat.add_sub_cancel]
      exact rfindPos_get hd
    · left
      rw [GetDir, dirEnd_of_some hd]
      exact extract_nil_of_le (by omega)

theorem GetDir_eq_take {s : Str} (h0 : GetVol s = []) :
    GetDir s = s.take (ParseSpec s).dirEnd := by
  rw [GetDir, extract, volEnd_of_nosep (GetVol_nil_get1 h0), List.drop_zero]

-- When the volume is empty, prefixing the parsed directory to a benign tail
-- cannot fabricate a volume separator at index 1.
theorem concat_h1 {pat t : Str} (hvol : GetVol pat = [])
    (ht0 : t.get? 0 ≠ some ':') (ht1 : t.get? 1 ≠ some ':') :
    (GetDir pat ++ t).get? 1 ≠ some ':' := by
  cases hdm : GetDir pat with
  | nil => simpa using ht1
  | cons c1 d' =>
    cases d' with
    | nil => simpa using ht0
    | cons c2 d'' =>
      have hg : (GetDir pat).get? 1 = some c2 := by rw [hdm]; rfl
      have hlen : 2 ≤ (GetDir pat).length := by rw [hdm]; simp
      have hq : pat.get? 1 = some c2 := by
        rw [GetDir_eq_take hvol] at hg hlen
        rw [← get1_of_take hlen]
        exact hg
      intro hcontra
      have hc2 : c2 = ':' := by simpa using hcontra
      rw [hc2] at hq
      exact (GetVol_nil_get1 hvol) hq

-- Master lemma: parsing `v ++ d ++ t` recovers the three parts, provided
-- `v` is a parse-shaped volume, `d` a parse-shaped directory, `t` has no
-- backslash, and no spurious volume separator arises.
theorem parse_concat {v d t : Str}
    (hv : v = [] ∨ ∃ c0, v = [c0, ':'] ∧ c0 ≠ '\\')
    (hd : d = [] ∨ d.getLast? = some '\\')
    (h1 : v = [] → (d ++ t).get? 1 ≠ some ':')
    (ht : '\\' ∉ t) :
    GetVol (v ++ d ++ t) = v ∧ GetDir (v ++ d ++ t) = d ∧ GetFile (v ++ d ++ t) = t := by
  have hvolEnd : (ParseSpec (v ++ d ++ t)).volEnd = v.length := by
    rcases hv with rfl | ⟨c0, rfl, -⟩
    · rw [List.nil_append, volEnd_of_nosep (h1 rfl)]
      rfl
    · have hsep : (([c0, ':'] ++ d) ++ t).get? 1 = some ':' := rfl
      rw [volEnd_of_sep hsep]
      rfl
  have hGetVol : GetVol (v ++ d ++ t) = v := by
    rw [GetVol_eq_take, hvolEnd, List.append_assoc]
    exact List.take_left' rfl
  rcases hd with rfl | hlast
  · have hnone : rfindPos (v ++ [] ++ t) '\\' = none := by
      rw [List.append_nil]
      apply rfindPos_eq_none.mpr
      intro hmem
      rcases List.mem_append.mp hmem with hm | hm
      · rcases hv with rfl | ⟨c0, rfl, hc0⟩
        · simp at hm
        · rcases (by simpa using hm : '\\' = c0 ∨ '\\' = ':') with h | h
          · exact hc0 h.symm
          · exact absurd h (by decide)
      · exact ht hm
    refine ⟨hGetVol, ?_, ?_⟩
    · rw [GetDir, dirEnd_of_none hnone]
      exact extract_nil_of_le (Nat.le_refl _)
    · rw [GetFile_eq_drop, dirEnd_of_none hnone, hvolEnd, List.append_nil]
      exact List.drop_left' rfl
  · have hdne : d ≠ [] := by
      intro hd0
      rw [hd0] at hlast
      exact absurd hlast (by simp)
    have hdpos : 0 < d.length := List.length_pos.mpr hdne
    have hgetp : (v ++ d ++ t).get? (v.length + d.length - 1) = some '\\' := by
      rw [List.get?_eq_getElem?,
        List.getElem?_append_left (by rw [List.length_append]; omega),
        List.getElem?_append_right (by omega),
        show v.length + d.length - 1 - v.length = d.length - 1 by omega,
        ← List.getLast?_eq_getElem? d]
      exact hlast
    have hmax : ∀ q, v.length + d.length - 1 < q →
        (v ++ d ++ t).get? q ≠ some '\\' := by
      intro q hq hget
      rw [List.get?_eq_getElem?,
        List.getElem?_append_right (by rw [List.length_append]; omega),
        ← List.get?_eq_getElem?] at hget
      exact ht (List.get?_mem hget)
    have hrf := rfindPos_of_get hgetp hmax
    have hdirEnd : (ParseSpec (v ++ d ++ t)).dirEnd = v.length + d.length := by
      rw [dirEnd_of_some hrf]
      omega
    refine ⟨hGetVol, ?_, ?_⟩
    · rw [GetDir, hdirEnd, hvolEnd, extract,
        List.take_left' (show (v ++ d).length = v.length + d.length by
          rw [List.length_append]),
        List.drop_left' rfl]
    · rw [GetFile_eq_drop, hdirEnd,
        List.drop_left' (show (v ++ d).length = v.length + d.length by
          rw [List.length_append])]

/-! ## The descend pass -/

theorem mkFileSpec3_no_sep {v d f : Str} (hd : d = [] ∨ d.getLast? = some '\\') :
    mkFileSpec3 v d f = v ++ d ++ f := by
  rcases hd with rfl | hlast
  · simp [mkFileSpec3, dirSepNeeded]
  · have hsep : dirSepNeeded d = false := by
      unfold dirSepNeeded
      rw [hlast]
      decide
    simp [mkFileSpec3, hsep]

theorem strip_of_getLast {s : Str} {c : Char} (h : s.getLast? = some c)
    (hc : c ≠ '\\') : stripTrailingSep s = s := by
  unfold stripTrailingSep
  rw [h]
  show (if c = '\\' then s.dropLast else s) = s
  rw [if_neg hc]

theorem enumAll_subset {L : List Entry} : ∀ e ∈ enumAll L, e ∈ L := by
  induction L with
  | nil => simp [enumAll]
  | cons a as ih =>
    rw [enumAll]
    by_cases hs : isSpecial a = true
    · rw [if_pos hs]
      intro e he
      exact List.mem_cons_of_mem a (ih e he)
    · rw [if_neg hs]
      intro e he
      rcases List.mem_cons.mp he with h | h
      · rw [h]
        exact List.mem_cons_self a as
      · exact List.mem_cons_of_mem a (ih e h)

theorem flatMap_map_congr {α β γ : Type _} (l : List α) (f : α → β) (g : β → List γ)
    (g' : α → List γ) (h : ∀ x ∈ l, g (f x) = g' x) :
    (l.map f).flatMap g = l.flatMap g' := by
  induction l with
  | nil => rfl
  | cons a as ih =>
    rw [List.map_cons, List.flatMap_cons, List.flatMap_cons,
      h a (List.mem_cons_self a as), ih (fun x hx => h x (List.mem_cons_of_mem a hx))]

/-- C6: in `YesSubFolders` mode, over any listing oracle whose entry names
at the wildcard level are separator-free (as OS entry names are), the trace
is exactly the match pass (identical to the `NoSubFolders` trace), followed
by opening a second enumerator on the unfiltered wildcard
`volume + directory + "*"`, followed by, for every enumerated entry whose
directory flag is set — matching the original filter or not — a recursive
invocation on the child pattern `volume + (directory + entryName) +
originalFile` with the same mode (and visitor). -/
theorem C6_descend_pass (listing : Str → List Entry) (fuel : Nat) (pat : Str)
    (hv : volumeValid pat = true)
    (hnames : ∀ e ∈ listing (mkFileSpec3 (GetVol pat) (GetDir pat) ['*']),
      '\\' ∉ e.name ∧ ':' ∉ e.name) :
    ForEachTrace listing (fuel + 1) pat Mode.YesSubFolders =
      ForEachTrace listing (fuel + 1) pat Mode.NoSubFolders ++
        Ev.openEnum (mkFileSpec3 (GetVol pat) (GetDir pat) ['*']) ::
        (enumAll (listing (mkFileSpec3 (GetVol pat) (GetDir pat) ['*']))).flatMap
          (fun e =>
            if e.isDir then
              Ev.recurse (mkFileSpec3 (GetVol pat) (GetDir pat ++ e.name) (GetFile pat)) ::
                ForEachTrace listing fuel
                  (mkFileSpec3 (GetVol pat) (GetDir pat ++ e.name) (GetFile pat))
                  Mode.YesSubFolders
            else []) := by
  have hvshape := GetVol_shape_valid hv
  have hdshape := GetDir_shape pat
  have hwild : mkFileSpec3 (GetVol pat) (GetDir pat) ['*'] =
      GetVol pat ++ GetDir pat ++ ['*'] := mkFileSpec3_no_sep hdshape
  have hwildlast : (GetVol pat ++ GetDir pat ++ ['*']).getLast? = some '*' := by
    rw [List.getLast?_append_of_ne_nil (GetVol pat ++ GetDir pat)
      (show (['*'] : Str) ≠ [] from by simp)]
    rfl
  have hstrip : stripTrailingSep (mkFileSpec3 (GetVol pat) (GetDir pat) ['*']) =
      mkFileSpec3 (GetVol pat) (GetDir pat) ['*'] := by
    rw [hwild]
    exact strip_of_getLast hwildlast (by decide)
  have hparse : GetVol (GetVol pat ++ GetDir pat ++ ['*']) = GetVol pat ∧
      GetDir (GetVol pat ++ GetDir pat ++ ['*']) = GetDir pat ∧
      GetFile (GetVol pat ++ GetDir pat ++ ['*']) = ['*'] := parse_concat hvshape hdshape
    (fun h0 => concat_h1 h0 (by decide) (by decide)) (by decide)
  have hitr : itrList listing (mkFileSpec3 (GetVol pat) (GetDir pat) ['*']) =
      (enumAll (listing (mkFileSpec3 (GetVol pat) (GetDir pat) ['*']))).map
        (fun e => (e, mkFileSpec3 (GetVol pat) (GetDir pat) e.name)) := by
    rw [itrList, hstrip, hwild]
    simp only [hparse.1, hparse.2.1]
  have hLHS : ForEachTrace listing (fuel + 1) pat Mode.YesSubFolders =
      (Ev.openEnum pat :: (itrList listing pat).map (fun p => Ev.visit p.2)) ++
        Ev.openEnum (mkFileSpec3 (GetVol pat) (GetDir pat) ['*']) ::
        (itrList listing (mkFileSpec3 (GetVol pat) (GetDir pat) ['*'])).flatMap
          (fun p =>
            if p.1.isDir then
              Ev.recurse (mkFileSpec3 (GetVol pat) (GetDir pat ++ GetFile p.2) (GetFile pat)) ::
                ForEachTrace listing fuel
                  (mkFileSpec3 (GetVol pat) (GetDir pat ++ GetFile p.2) (GetFile pat))
                  Mode.YesSubFolders
            else []) := rfl
  have hRHS1 : ForEachTrace listing (fuel + 1) pat Mode.NoSubFolders =
      Ev.openEnum pat :: (itrList listing pat).map (fun p => Ev.visit p.2) := rfl
  rw [hLHS, hRHS1]
  congr 1
  congr 1
  rw [hitr]
  apply flatMap_map_congr
  intro e he
  have hemem : e ∈ listing (mkFileSpec3 (GetVol pat) (GetDir pat) ['*']) :=
    enumAll_subset e he
  rcases hnames e hemem with ⟨hbs, hcol⟩
  have hname : GetFile (mkFileSpec3 (GetVol pat) (GetDir pat) e.name) = e.name := by
    rw [mkFileSpec3_no_sep hdshape]
    exact (parse_concat hvshape hdshape
      (fun h0 => concat_h1 h0 (get?_ne_of_not_mem hcol 0) (get?_ne_of_not_mem hcol 1))
      hbs).2.2
  simp only [hname]

/-- C6, witness: one level holding a subfolder `sub` and a file `a.txt`,
walked with pattern `"*"`: the deep trace is the shallow trace plus the
wildcard open plus one recursive call on `"sub\*"`. -/
theorem C6_descend_pass_witness :
    volumeValid ['*'] = true ∧
    ForEachTrace demoListing 1 ['*'] Mode.YesSubFolders =
      ForEachTrace demoListing 1 ['*'] Mode.NoSubFolders ++
        Ev.openEnum (mkFileSpec3 (GetVol ['*']) (GetDir ['*']) ['*']) ::
        (enumAll (demoListing (mkFileSpec3 (GetVol ['*']) (GetDir ['*']) ['*']))).flatMap
          (fun e =>
            if e.isDir then
              Ev.recurse (mkFileSpec3 (GetVol ['*']) (GetDir ['*'] ++ e.name) (GetFile ['*'])) ::
                ForEachTrace demoListing 0
                  (mkFileSpec3 (GetVol ['*']) (GetDir ['*'] ++ e.name) (GetFile ['*']))
                  Mode.YesSubFolders
            else []) :=
  ⟨by decide, C6_descend_pass demoListing 0 ['*'] (by decide) (by decide)⟩

end PKIsensee
